import Mathlib

/-!
Verification of the transaction-table editing core of the `actual` desktop
client (`packages/desktop-client/src/hooks/useActions.ts`): the amount
codec (`serializeTransaction` / `deserializeTransaction`), the
split-expansion reducer of `SplitsExpandedProvider`, the visible-row filter
of `TransactionTable`, the draft-buffer `onDelete` guard, and the per-row
editable field sets of `getFields`.

Helpers imported from `loot-core` (`integerToCurrency`, `amountToInteger`,
`evalArithmetic`, `currentDay`, `getScheduledAmount`, `deleteTransaction`)
are not part of the excerpt; they are modelled from the spec, as noted on
each definition.  Monetary amounts are integers in minor units; textual
amounts are decimal strings; arithmetic over them is exact, using `ℚ`.
-/

/-! ### Digit and decimal-string helpers -/

/-- The character for a single decimal digit `d < 10`. -/
def digitChar (d : Nat) : Char := Char.ofNat (48 + d)

/-- Numeric value `0`–`9` of a digit character. -/
def digitVal (c : Char) : Nat := c.toNat - 48

/-- Whether `c` is one of `'0'`–`'9'`. -/
def isDigitChar (c : Char) : Bool := 48 ≤ c.toNat && c.toNat ≤ 57

/-- Decimal digits of `n`, most significant first.  The fuel argument only
serves termination; `fuel > n` is always sufficient. -/
def natToCharsAux : Nat → Nat → List Char
  | 0, _ => []
  | fuel + 1, n =>
    if n < 10 then [digitChar n]
    else natToCharsAux fuel (n / 10) ++ [digitChar (n % 10)]

/-- Decimal digits of `n`, most significant first. -/
def natToChars (n : Nat) : List Char := natToCharsAux (n + 1) n

/-- Two-digit, zero-padded rendering of `m % 100`'s value `m < 100`. -/
def pad2 (m : Nat) : List Char := [digitChar (m / 10), digitChar (m % 10)]

/-- Modelled from the spec: `integerToCurrency` from `loot-core`'s shared
util, which renders a signed integer amount of minor units as currency
text with two decimal places (e.g. `0 ↦ "0.00"`, `-350 ↦ "-3.50"`). -/
def integerToCurrency (n : Int) : String :=
  if n < 0 then String.mk ('-' :: (natToChars (n.natAbs / 100) ++ '.' :: pad2 (n.natAbs % 100)))
  else String.mk (natToChars (n.toNat / 100) ++ '.' :: pad2 (n.toNat % 100))

/-! ### Arithmetic-expression evaluation

Modelled from the spec: `evalArithmetic` from `loot-core` evaluates the
typed text as an arithmetic expression (`+ - * /` over decimal literals)
and yields `null` (here `none`) for malformed text, including the empty
string. -/

/-- One step of decimal accumulation: shift `acc` and add the digit. -/
def digitStep (acc : Nat) (c : Char) : Nat := 10 * acc + digitVal c

/-- Greedily read decimal digits, accumulating their value onto `acc`;
stops at the first non-digit. -/
def readInt : Nat → List Char → Nat × List Char
  | acc, [] => (acc, [])
  | acc, c :: cs =>
    if isDigitChar c then readInt (digitStep acc c) cs else (acc, c :: cs)

/-- Greedily read fractional digits; `scale` is the place value of the next
digit (`1/10` initially). -/
def readFrac : ℚ → ℚ → List Char → ℚ × List Char
  | acc, _, [] => (acc, [])
  | acc, scale, c :: cs =>
    if isDigitChar c then readFrac (acc + scale * (digitVal c : ℚ)) (scale / 10) cs
    else (acc, c :: cs)

/-- Finish reading a numeric literal whose first digit has value `d0`;
consumes the remaining integer digits and an optional fractional part. -/
def takeNum (d0 : Nat) (cs : List Char) : ℚ × List Char :=
  let r := readInt d0 cs
  match r.2 with
  | c :: cs2 =>
    if c = '.' then
      let f := readFrac 0 (1 / 10) cs2
      ((r.1 : ℚ) + f.1, f.2)
    else ((r.1 : ℚ), r.2)
  | [] => ((r.1 : ℚ), [])

/-- Tokens of the arithmetic language. -/
inductive Tok where
  | num (q : ℚ)
  | add
  | sub
  | mul
  | div
deriving DecidableEq

/-- Tokenizer; the fuel argument only serves termination (each step
consumes at least one character, so fuel equal to the input length is
always sufficient). -/
def tokenizeF : Nat → List Char → Option (List Tok)
  | _, [] => some []
  | 0, _ :: _ => none
  | fuel + 1, c :: cs =>
    if c = ' ' then tokenizeF fuel cs
    else if c = '+' then (tokenizeF fuel cs).map (Tok.add :: ·)
    else if c = '-' then (tokenizeF fuel cs).map (Tok.sub :: ·)
    else if c = '*' then (tokenizeF fuel cs).map (Tok.mul :: ·)
    else if c = '/' then (tokenizeF fuel cs).map (Tok.div :: ·)
    else if isDigitChar c then
      match takeNum (digitVal c) cs with
      | (q, rest) => (tokenizeF fuel rest).map (Tok.num q :: ·)
    else none

/-- Evaluate a `*`/`/` chain following an initial value `acc`; returns the
value together with the unconsumed tokens. -/
def parseTerm : ℚ → List Tok → ℚ × List Tok
  | acc, Tok.mul :: Tok.num q :: rest => parseTerm (acc * q) rest
  | acc, Tok.div :: Tok.num q :: rest => parseTerm (acc / q) rest
  | acc, rest => (acc, rest)

/-- Evaluate a `+`/`-` chain of terms onto `acc`; fuel equal to the token
count is always sufficient. -/
def parseSum : Nat → ℚ → List Tok → Option ℚ
  | _, acc, [] => some acc
  | 0, _, _ :: _ => none
  | fuel + 1, acc, Tok.add :: Tok.num q :: rest =>
    match parseTerm q rest with
    | (v, rest2) => parseSum fuel (acc + v) rest2
  | fuel + 1, acc, Tok.sub :: Tok.num q :: rest =>
    match parseTerm q rest with
    | (v, rest2) => parseSum fuel (acc - v) rest2
  | _ + 1, _, _ => none

/-- Evaluate a complete token list (optionally sign-prefixed). -/
def parseToks : List Tok → Option ℚ
  | Tok.num q :: rest =>
    match parseTerm q rest with
    | (v, rest2) => parseSum rest2.length v rest2
  | Tok.sub :: Tok.num q :: rest =>
    match parseTerm (-q) rest with
    | (v, rest2) => parseSum rest2.length v rest2
  | _ => none

/-- Modelled from the spec: `evalArithmetic` from `loot-core`, called with
a `null` default — evaluates arithmetic text (`+ - * /` over decimal
literals) to a number, or `none` for malformed or empty text. -/
def evalArithmetic (s : String) : Option ℚ :=
  match tokenizeF s.toList.length s.toList with
  | some toks => parseToks toks
  | none => none

/-- Modelled from the spec: `amountToInteger` from `loot-core`, which
converts a decimal currency amount to integer minor units by rounding
`q * 100` to the nearest integer (half away from zero towards `+∞`, as
`Math.round` does). -/
def amountToInteger (q : ℚ) : Int := round (q * 100)

/-! ### Round-trip lemmas for the decimal codec -/

lemma isDigitChar_digitChar (d : Nat) (h : d < 10) : isDigitChar (digitChar d) = true := by
  interval_cases d <;> decide

lemma digitVal_digitChar (d : Nat) (h : d < 10) : digitVal (digitChar d) = d := by
  interval_cases d <;> decide

lemma digit_ne_special {c : Char} (h : isDigitChar c = true) :
    c ≠ ' ' ∧ c ≠ '+' ∧ c ≠ '-' ∧ c ≠ '*' ∧ c ≠ '/' ∧ c ≠ '.' := by
  refine ⟨?_, ?_, ?_, ?_, ?_, ?_⟩ <;> rintro rfl <;> exact absurd h (by decide)

lemma natToCharsAux_ne_nil : ∀ fuel n, n < fuel → natToCharsAux fuel n ≠ [] := by
  intro fuel
  induction fuel with
  | zero => intro n h; omega
  | succ f _ =>
    intro n _
    simp only [natToCharsAux]
    split <;> simp

lemma natToCharsAux_digits :
    ∀ fuel n, n < fuel → ∀ c ∈ natToCharsAux fuel n, isDigitChar c = true := by
  intro fuel
  induction fuel with
  | zero => intro n h; omega
  | succ f ih =>
    intro n hn c hc
    simp only [natToCharsAux] at hc
    split at hc
    · simp only [List.mem_singleton] at hc
      subst hc
      exact isDigitChar_digitChar _ (by omega)
    · rcases List.mem_append.mp hc with h1 | h1
      · exact ih (n / 10) (by omega) c h1
      · simp only [List.mem_singleton] at h1
        subst h1
        exact isDigitChar_digitChar _ (by omega)

lemma foldl_natToCharsAux :
    ∀ fuel n, n < fuel → ∀ acc : Nat,
      List.foldl digitStep acc (natToCharsAux fuel n) =
        acc * 10 ^ (natToCharsAux fuel n).length + n := by
  intro fuel
  induction fuel with
  | zero => intro n h; omega
  | succ f ih =>
    intro n hn acc
    simp only [natToCharsAux]
    split
    · simp [digitStep, digitVal_digitChar _ (by omega : n < 10)]
      ring
    · rename_i h10
      rw [List.foldl_append, ih (n / 10) (by omega)]
      simp only [List.foldl_cons, List.foldl_nil, List.length_append, List.length_singleton]
      rw [digitStep, digitVal_digitChar _ (by omega : n % 10 < 10)]
      calc 10 * (acc * 10 ^ (natToCharsAux f (n / 10)).length + n / 10) + n % 10
          = acc * (10 ^ (natToCharsAux f (n / 10)).length * 10) +
              (10 * (n / 10) + n % 10) := by ring
        _ = acc * 10 ^ ((natToCharsAux f (n / 10)).length + 1) + n := by
            rw [pow_succ, Nat.div_add_mod]

lemma readInt_append (ds : List Char) (hds : ∀ c ∈ ds, isDigitChar c = true) :
    ∀ (acc : Nat) (rest : List Char),
      readInt acc (ds ++ rest) = readInt (List.foldl digitStep acc ds) rest := by
  induction ds with
  | nil => intro acc rest; rfl
  | cons c cs ih =>
    intro acc rest
    have hc : isDigitChar c = true := hds c (List.mem_cons_self c cs)
    simp only [List.cons_append, readInt, hc, if_true, List.foldl_cons]
    exact ih (fun x hx => hds x (List.mem_cons_of_mem c hx)) (digitStep acc c) rest

lemma readInt_dot (acc : Nat) (l : List Char) : readInt acc ('.' :: l) = (acc, '.' :: l) := by
  simp [readInt, isDigitChar]

/-- Tokenizing a pure decimal literal `intDigits.fracDigits` (produced by the
formatter) yields the single number token of the corresponding value. -/
lemma tokenizeF_literal (a b : Nat) (hb : b < 100) :
    ∀ fuel, tokenizeF (fuel + 1) (natToChars a ++ '.' :: pad2 b) =
      some [Tok.num ((a : ℚ) + (0 + (1 : ℚ) / 10 * (b / 10 : Nat) + (1 : ℚ) / 10 / 10 * (b % 10 : Nat)))] := by
  intro fuel
  have hlt : a < a + 1 := Nat.lt_succ_self a
  obtain ⟨d, ds, heq⟩ : ∃ d ds, natToChars a = d :: ds := by
    rcases h : natToChars a with _ | ⟨d, ds⟩
    · exact absurd h (natToCharsAux_ne_nil (a + 1) a hlt)
    · exact ⟨d, ds, rfl⟩
  have hdigits : ∀ c ∈ d :: ds, isDigitChar c = true := by
    rw [← heq]; exact natToCharsAux_digits (a + 1) a hlt
  have hd : isDigitChar d = true := hdigits d (List.mem_cons_self d ds)
  have hne := digit_ne_special hd
  rw [heq, List.cons_append]
  simp only [tokenizeF, hne.1, hne.2.1, hne.2.2.1, hne.2.2.2.1, hne.2.2.2.2.1, hd,
    if_false, if_true]
  have hfold : List.foldl digitStep (digitVal d) ds = a := by
    have h0 : List.foldl digitStep 0 (d :: ds) = a := by
      rw [← heq]
      have := foldl_natToCharsAux (a + 1) a hlt 0
      simpa using this
    simpa [digitStep] using h0
  have hread : readInt (digitVal d) (ds ++ '.' :: pad2 b) = (a, '.' :: pad2 b) := by
    rw [readInt_append ds (fun c hc => hdigits c (List.mem_cons_of_mem d hc)), hfold,
      readInt_dot]
  have hfrac : readFrac 0 (1 / 10) (pad2 b) =
      (0 + (1 : ℚ) / 10 * (b / 10 : Nat) + (1 : ℚ) / 10 / 10 * (b % 10 : Nat), []) := by
    simp only [pad2, readFrac, isDigitChar_digitChar (b / 10) (by omega),
      isDigitChar_digitChar (b % 10) (by omega), if_true,
      digitVal_digitChar (b / 10) (by omega), digitVal_digitChar (b % 10) (by omega)]
  have htake : takeNum (digitVal d) (ds ++ '.' :: pad2 b) =
      ((a : ℚ) + (0 + (1 : ℚ) / 10 * (b / 10 : Nat) + (1 : ℚ) / 10 / 10 * (b % 10 : Nat)), []) := by
    simp only [takeNum, hread, hfrac, if_true, eq_self_iff_true]
  rw [htake]
  simp [tokenizeF]

/-- Evaluating the formatter's output text recovers the exact decimal value
`m / 100`. -/
lemma evalArithmetic_fmt (m : Nat) :
    evalArithmetic (String.mk (natToChars (m / 100) ++ '.' :: pad2 (m % 100))) =
      some ((m : ℚ) / 100) := by
  have hb : m % 100 < 100 := Nat.mod_lt _ (by omega)
  have hlist : (String.mk (natToChars (m / 100) ++ '.' :: pad2 (m % 100))).toList =
      natToChars (m / 100) ++ '.' :: pad2 (m % 100) := rfl
  rw [evalArithmetic, hlist]
  have hlen : (natToChars (m / 100) ++ '.' :: pad2 (m % 100)).length =
      ((natToChars (m / 100)).length + 2) + 1 := by
    simp [pad2]
  rw [hlen, tokenizeF_literal (m / 100) (m % 100) hb]
  have hval : ((m / 100 : Nat) : ℚ) +
      (0 + (1 : ℚ) / 10 * (m % 100 / 10 : Nat) + (1 : ℚ) / 10 / 10 * (m % 100 % 10 : Nat)) =
      (m : ℚ) / 100 := by
    have h1 : (m : ℚ) = 100 * ((m / 100 : Nat) : ℚ) + 10 * ((m % 100 / 10 : Nat) : ℚ) +
        ((m % 100 % 10 : Nat) : ℚ) := by
      have : m = 100 * (m / 100) + 10 * (m % 100 / 10) + m % 100 % 10 := by omega
      exact_mod_cast this
    rw [h1]
    ring
  rw [← hval]
  rfl

/-- Evaluating the currency text of a non-negative integer amount recovers
its exact decimal value. -/
lemma evalArithmetic_integerToCurrency (n : Int) (h : 0 ≤ n) :
    evalArithmetic (integerToCurrency n) = some ((n : ℚ) / 100) := by
  rw [integerToCurrency, if_neg (by omega)]
  rw [evalArithmetic_fmt n.toNat]
  congr 1
  rw [show ((n.toNat : Nat) : ℚ) = ((n.toNat : Int) : ℚ) by push_cast; ring,
    Int.toNat_of_nonneg h]

/-- Currency text is never the empty string. -/
lemma integerToCurrency_ne_empty (n : Int) : integerToCurrency n ≠ "" := by
  rw [integerToCurrency]
  split <;> intro h <;> have hdata := congrArg String.data h <;> simp at hdata

/-- Converting the exact decimal value of `n` minor units back to an
integer amount recovers `n`. -/
lemma amountToInteger_div100 (n : Int) : amountToInteger ((n : ℚ) / 100) = n := by
  rw [amountToInteger, div_mul_cancel₀ _ (by norm_num : (100 : ℚ) ≠ 0), round_intCast]

/-! ### Transactions and the amount codec (`useActions.ts` lines 183–237) -/

/-- A transaction, restricted to the fields the codec reads or writes.
`amount` is a nullable signed integer of minor units, `date` a nullable
date string; `_inverse` is the preview-row inversion flag. -/
structure Transaction where
  id : String
  _inverse : Bool
  date : Option String
  amount : Option Int
deriving DecidableEq

/-- The display form of a transaction: the same fields plus the textual
`debit`/`credit` pair produced by `serializeTransaction`. -/
structure SerializedTransaction where
  id : String
  _inverse : Bool
  date : Option String
  amount : Option Int
  debit : String
  credit : String
deriving DecidableEq

/-- `isPreviewId` from the source: the id contains the substring
`"preview/"` (JS `id.indexOf('preview/') !== -1`). -/
def isPreviewId (id : String) : Bool := decide ("preview/".toList <:+: id.toList)

/-- `isTemporaryId` from the source: the id contains the substring
`"temp"` (JS `id.indexOf('temp') !== -1`). -/
def isTemporaryId (id : String) : Bool := decide ("temp".toList <:+: id.toList)

/-- Modelled from the spec: `getScheduledAmount` from `loot-core`'s shared
schedules module — scheduled transactions are external collaborators; for a
plain numeric amount the scheduled amount is the amount itself. -/
def getScheduledAmount (amount : Option Int) : Option Int := amount

/-- `serializeTransaction` from the source.  `validDate` stands for the
external `date-fns` check `isDateValid(parseISO ·)`; an invalid or missing
date is nulled rather than rejected.  A negative amount becomes debit text,
a positive one credit text, and a zero amount is shown in the field chosen
by `showZeroInDeposit`. -/
def serializeTransaction (validDate : String → Bool) (t : Transaction)
    (showZeroInDeposit : Bool) : SerializedTransaction :=
  let amount : Option Int :=
    if isPreviewId t.id then
      (getScheduledAmount t.amount).map (fun a => (if t._inverse then -1 else 1) * a)
    else t.amount
  let debit : Option Int :=
    match amount with
    | some a => if a < 0 then some (-a) else none
    | none => none
  let credit : Option Int :=
    match amount with
    | some a => if 0 < a then some a else none
    | none => none
  let credit : Option Int := if amount = some 0 ∧ showZeroInDeposit then some 0 else credit
  let debit : Option Int := if amount = some 0 ∧ ¬showZeroInDeposit then some 0 else debit
  let date : Option String :=
    match t.date with
    | some d => if validDate d then some d else none
    | none => none
  { id := t.id, _inverse := t._inverse, date := date, amount := t.amount,
    debit := match debit with | some n => integerToCurrency n | none => "",
    credit := match credit with | some n => integerToCurrency n | none => "" }

/-- `deserializeTransaction` from the source.  `today` stands for the
external `currentDay()`.  Reads whichever of debit/credit is non-empty,
negating a debit; a `none` parse falls back to the original amount, and a
null date falls back to the original date or to today. -/
def deserializeTransaction (today : String) (t : SerializedTransaction)
    (orig : Transaction) : Transaction :=
  let parsed : Option ℚ :=
    if t.debit ≠ "" then
      match evalArithmetic t.debit with
      | some p => some (-p)
      | none => none
    else evalArithmetic t.credit
  let amount : Option Int :=
    match parsed with
    | some q => some (amountToInteger q)
    | none => orig.amount
  let date : String :=
    match t.date with
    | some d => d
    | none =>
      match orig.date with
      | some d => if d = "" then today else d
      | none => today
  { id := t.id, _inverse := t._inverse, date := some date, amount := amount }

/-! ### Claims about the amount codec -/

lemma evalArithmetic_empty : evalArithmetic "" = none := rfl

lemma integerToCurrency_zero : integerToCurrency 0 = "0.00" := by decide

/-- C1 (Amount codec round-trip): for every integer amount `a` and every
`showZeroInDeposit` flag `f`, deserializing the result of serializing a
(non-preview) transaction with amount `a` under `f`, with the produced
debit/credit text unmodified, yields a transaction whose amount is `a`. -/
theorem amount_codec_roundtrip (validDate : String → Bool) (today : String)
    (t orig : Transaction) (f : Bool) (a : Int)
    (hp : isPreviewId t.id = false) (ha : t.amount = some a) :
    (deserializeTransaction today (serializeTransaction validDate t f) orig).amount = some a := by
  rcases lt_trichotomy a 0 with hlt | heq | hgt
  · have h1 : ¬(0 : Int) < a := by omega
    have h2 : a ≠ 0 := by omega
    have hser : (serializeTransaction validDate t f).debit = integerToCurrency (-a) ∧
        (serializeTransaction validDate t f).credit = "" := by
      constructor <;> simp [serializeTransaction, hp, ha, hlt, h1, h2]
    simp only [deserializeTransaction, hser.1, hser.2]
    have hd := integerToCurrency_ne_empty (-a)
    rw [if_pos hd, evalArithmetic_integerToCurrency (-a) (by omega)]
    have hcast : -(((-a : ℤ) : ℚ) / 100) = ((a : ℤ) : ℚ) / 100 := by push_cast; ring
    simp only [hcast, amountToInteger_div100]
  · subst heq
    cases f
    · have hser : (serializeTransaction validDate t false).debit = integerToCurrency 0 ∧
          (serializeTransaction validDate t false).credit = "" := by
        constructor <;> simp [serializeTransaction, hp, ha]
      simp only [deserializeTransaction, hser.1, hser.2]
      have hd := integerToCurrency_ne_empty 0
      rw [if_pos hd, evalArithmetic_integerToCurrency 0 (by omega)]
      have hcast : -(((0 : ℤ) : ℚ) / 100) = ((0 : ℤ) : ℚ) / 100 := by push_cast; ring
      simp only [hcast, amountToInteger_div100]
    · have hser : (serializeTransaction validDate t true).credit = integerToCurrency 0 ∧
          (serializeTransaction validDate t true).debit = "" := by
        constructor <;> simp [serializeTransaction, hp, ha]
      simp only [deserializeTransaction, hser.1, hser.2]
      rw [if_neg (by simp), evalArithmetic_integerToCurrency 0 (by omega)]
      simp only [amountToInteger_div100]
  · have h1 : ¬a < 0 := by omega
    have h2 : a ≠ 0 := by omega
    have hser : (serializeTransaction validDate t f).credit = integerToCurrency a ∧
        (serializeTransaction validDate t f).debit = "" := by
      constructor <;> simp [serializeTransaction, hp, ha, hgt, h1, h2]
    simp only [deserializeTransaction, hser.1, hser.2]
    rw [if_neg (by simp), evalArithmetic_integerToCurrency a (by omega)]
    simp only [amountToInteger_div100]

/-- Witness for C1 at amount `-350`. -/
theorem amount_codec_roundtrip_witness :
    (deserializeTransaction "2024-01-01"
      (serializeTransaction (fun _ => true)
        ⟨"abc", false, some "2024-01-02", some (-350)⟩ true)
      ⟨"orig", false, none, some 7⟩).amount = some (-350) :=
  amount_codec_roundtrip (fun _ => true) "2024-01-01" _ _ true (-350) (by decide) rfl

/-- C2 (Zero-amount display): for a non-preview transaction whose amount is
exactly `0`, serializing with `showZeroInDeposit = true` gives credit
`"0.00"` and debit `""`, and with `showZeroInDeposit = false` gives debit
`"0.00"` and credit `""`; the zero appears in exactly one field. -/
theorem serialize_zero_display (validDate : String → Bool) (t : Transaction)
    (hp : isPreviewId t.id = false) (ha : t.amount = some 0) :
    (serializeTransaction validDate t true).credit = "0.00" ∧
    (serializeTransaction validDate t true).debit = "" ∧
    (serializeTransaction validDate t false).debit = "0.00" ∧
    (serializeTransaction validDate t false).credit = "" := by
  refine ⟨?_, ?_, ?_, ?_⟩ <;>
    simp [serializeTransaction, hp, ha, integerToCurrency_zero]

/-- Witness for C2 at a concrete zero-amount transaction. -/
theorem serialize_zero_display_witness :
    (serializeTransaction (fun _ => true) ⟨"abc", false, none, some 0⟩ true).credit = "0.00" ∧
    (serializeTransaction (fun _ => true) ⟨"abc", false, none, some 0⟩ true).debit = "" ∧
    (serializeTransaction (fun _ => true) ⟨"abc", false, none, some 0⟩ false).debit = "0.00" ∧
    (serializeTransaction (fun _ => true) ⟨"abc", false, none, some 0⟩ false).credit = "" :=
  serialize_zero_display (fun _ => true) _ (by decide) rfl

/-- C8 (Deserialize degradation): if both debit and credit are empty, or
the field that `deserializeTransaction` reads is non-empty but parses to
`none`, the result keeps the original transaction's amount; the function is
total, so malformed text is never a hard failure. -/
theorem deserialize_degradation (today : String) (t : SerializedTransaction)
    (orig : Transaction)
    (h : (t.debit = "" ∧ t.credit = "") ∨ (t.debit ≠ "" ∧ evalArithmetic t.debit = none) ∨
      (t.debit = "" ∧ evalArithmetic t.credit = none)) :
    (deserializeTransaction today t orig).amount = orig.amount := by
  rcases h with ⟨h1, h2⟩ | ⟨h1, h2⟩ | ⟨h1, h2⟩
  · simp [deserializeTransaction, h1, h2, evalArithmetic_empty]
  · simp [deserializeTransaction, h1, h2]
  · simp [deserializeTransaction, h1, h2]

/-- Witness for C8 on the malformed text `"abc"`. -/
theorem deserialize_degradation_witness :
    (deserializeTransaction "2024-01-01"
      ⟨"id1", false, none, none, "abc", ""⟩
      ⟨"orig", false, none, some 42⟩).amount = some 42 :=
  deserialize_degradation "2024-01-01" _ _ (Or.inr (Or.inl ⟨by decide, by decide⟩))

/-- C10 (Deserialize never outputs a null date): the deserialized
transaction's date is always non-null; when the display date is null it is
the original's date, or `today` (the current day) when the original date is
null/absent. -/
theorem deserialize_date_nonnull (today : String) (t : SerializedTransaction)
    (orig : Transaction) (d : String) :
    ((deserializeTransaction today t orig).date.isSome = true) ∧
    (t.date = none → orig.date = some d → d ≠ "" →
      (deserializeTransaction today t orig).date = some d) ∧
    (t.date = none → (orig.date = none ∨ orig.date = some "") →
      (deserializeTransaction today t orig).date = some today) ∧
    (t.date = some d → (deserializeTransaction today t orig).date = some d) := by
  refine ⟨?_, ?_, ?_, ?_⟩
  · simp [deserializeTransaction]
  · intro h1 h2 h3
    simp [deserializeTransaction, h1, h2, h3]
  · intro h1 h2
    rcases h2 with h2 | h2 <;> simp [deserializeTransaction, h1, h2]
  · intro h1
    simp [deserializeTransaction, h1]

/-- Witness for C10: a null display date with an absent original date
falls back to the current day. -/
theorem deserialize_date_nonnull_witness :
    (deserializeTransaction "2024-01-01"
      ⟨"id1", false, none, none, "", ""⟩
      ⟨"orig", false, none, none⟩).date = some "2024-01-01" :=
  (deserialize_date_nonnull "2024-01-01" ⟨"id1", false, none, none, "", ""⟩
    ⟨"orig", false, none, none⟩ "x").2.2.1 rfl (Or.inl rfl)

/-! ### Split-expansion state machine (`useActions.ts` lines 251–342) -/

/-- The global expansion default. -/
inductive Mode where
  | expand
  | collapse
deriving DecidableEq

/-- The state held by `SplitsExpandedProvider`'s reducer: the global
`mode`, the override id set `ids`, and the id of the parent currently
mid-transition (`transitionId`, null when no switch is in flight). -/
structure SplitsState where
  mode : Mode
  ids : Finset String
  transitionId : Option String
deriving DecidableEq

/-- The actions of the reducer (the JS default case throws on an unknown
action type; the Lean action type is exhaustive, so it has no analogue). -/
inductive SplitsAction where
  | toggleSplit (id : String)
  | openSplit (id : String)
  | setMode (mode : Mode)
  | switchMode (id : String)
  | finishSwitchMode
deriving DecidableEq

/-- The reducer of `SplitsExpandedProvider`, case for case from the
source's `useReducer` callback. -/
def splitsReducer (state : SplitsState) : SplitsAction → SplitsState
  | .toggleSplit id =>
    { state with ids := if id ∈ state.ids then state.ids.erase id else insert id state.ids }
  | .openSplit id =>
    { state with ids := if state.mode = .collapse then state.ids.erase id else insert id state.ids }
  | .setMode mode => { state with mode := mode, ids := ∅, transitionId := none }
  | .switchMode id =>
    if state.transitionId ≠ none then state
    else
      { state with
        mode := if state.mode = .expand then .collapse else .expand,
        transitionId := some id,
        ids := ∅ }
  | .finishSwitchMode => { state with transitionId := none }

/-- The effective-expansion function derived in `useSplitsExpanded`:
under collapse mode an id is expanded iff it is *not* overridden, under
expand mode iff it is. -/
def expanded (state : SplitsState) (id : String) : Bool :=
  if state.mode = .collapse then !(decide (id ∈ state.ids)) else decide (id ∈ state.ids)

/-! ### Claims about the state machine -/

/-- C3 (Mode-switch exclusivity): a `switch-mode` action on a state whose
`transitionId` is non-null leaves the state completely unchanged, and two
consecutive `switch-mode` actions from a settled state leave `transitionId`
equal to the anchor supplied by the first action only. -/
theorem switch_mode_exclusive (s s' : SplitsState) (i j k : String)
    (h : s'.transitionId ≠ none) (h0 : s.transitionId = none) :
    splitsReducer s' (.switchMode k) = s' ∧
    (splitsReducer (splitsReducer s (.switchMode i)) (.switchMode j)).transitionId = some i := by
  constructor
  · simp [splitsReducer, h]
  · simp [splitsReducer, h0]

/-- Witness for C3 at concrete states. -/
theorem switch_mode_exclusive_witness :
    splitsReducer ⟨Mode.expand, ∅, some "busy"⟩ (.switchMode "k") = ⟨Mode.expand, ∅, some "busy"⟩ ∧
    (splitsReducer (splitsReducer ⟨Mode.expand, ∅, none⟩ (.switchMode "i"))
      (.switchMode "j")).transitionId = some "i" :=
  switch_mode_exclusive ⟨Mode.expand, ∅, none⟩ ⟨Mode.expand, ∅, some "busy"⟩ "i" "j" "k"
    (by simp) rfl

/-- C4 (Toggle round-trip): toggling the same id twice restores the
effective-expansion value of that id and its override-set membership
(indeed the whole override set). -/
theorem toggle_twice_roundtrip (s : SplitsState) (id : String) :
    expanded (splitsReducer (splitsReducer s (.toggleSplit id)) (.toggleSplit id)) id =
      expanded s id ∧
    (id ∈ (splitsReducer (splitsReducer s (.toggleSplit id)) (.toggleSplit id)).ids ↔
      id ∈ s.ids) := by
  have hstate : splitsReducer (splitsReducer s (.toggleSplit id)) (.toggleSplit id) = s := by
    by_cases h : id ∈ s.ids
    · simp only [splitsReducer, if_pos h]
      rw [if_neg (by simp), Finset.insert_erase h]
    · simp only [splitsReducer, if_neg h]
      rw [if_pos (by simp), Finset.erase_insert h]
  rw [hstate]
  exact ⟨rfl, Iff.rfl⟩

/-- C5 (openOnSplit): the `open-split` action is idempotent, and after it
the effective expansion of the opened id is `true` in either mode. -/
theorem open_split_idempotent_expands (s : SplitsState) (id : String) :
    splitsReducer (splitsReducer s (.openSplit id)) (.openSplit id) =
      splitsReducer s (.openSplit id) ∧
    expanded (splitsReducer s (.openSplit id)) id = true := by
  constructor
  · by_cases h : s.mode = Mode.collapse <;>
      simp [splitsReducer, h, Finset.erase_idem, Finset.insert_idem]
  · by_cases h : s.mode = Mode.collapse <;>
      simp [splitsReducer, expanded, h]

/-! ### Draft staging buffer: `onDelete` (`useActions.ts` lines 2018–2031) -/

/-- The `{data, diff}` result shape of the structural buffer operations;
only `data` (the new sequence) is consumed by `onDelete`. -/
structure TransUpdate where
  data : List Transaction

/-- Modelled from the spec: `deleteTransaction` from `loot-core`'s shared
transactions module — `delete(sequence, id)` removes the (non-root child)
transaction with the given id; `data` is the new sequence. -/
def deleteTransaction (trans : List Transaction) (id : String) : TransUpdate :=
  ⟨trans.filter (fun t => t.id ≠ id)⟩

/-- `onDelete` from the source: only temporary (draft) ids are handled
locally; deleting the first transaction of the draft buffer is refused
("You can never delete the parent new transaction").  The source indexes
`newTrans[0]`, so the buffer is non-empty whenever this runs; the empty
case is the identity.  Non-temporary ids leave the buffer untouched. -/
def onDelete (newTrans : List Transaction) (id : String) : List Transaction :=
  if isTemporaryId id then
    match newTrans with
    | [] => newTrans
    | t0 :: _ => if id = t0.id then newTrans else (deleteTransaction newTrans id).data
  else newTrans

/-- C7 (Draft anchor protection): requesting deletion of the first
element's id returns the draft buffer unchanged. -/
theorem delete_anchor_noop (t0 : Transaction) (rest : List Transaction) :
    onDelete (t0 :: rest) t0.id = t0 :: rest := by
  by_cases h : isTemporaryId t0.id <;> simp [onDelete, h]

/-! ### Editable field sets: `getFields` (`useActions.ts` lines 1888–1919) -/

/-- The fields of a table row that `getFields` inspects. -/
structure TableItem where
  id : String
  is_child : Bool
deriving DecidableEq

/-- `getFields` from the source: the ordered editable field list of a row,
narrowed by row kind (split child, preview, temporary) and by the
`showAccount` / `showCategory` table configuration. -/
def getFields (showAccount showCategory : Bool) (item : TableItem) : List String :=
  let fields := ["select", "date", "account", "payee", "notes", "category", "debit",
    "credit", "cleared"]
  let fields :=
    if item.is_child then ["select", "payee", "notes", "category", "debit", "credit"]
    else fields.filter (fun f => (showAccount || f ≠ "account") && (showCategory || f ≠ "category"))
  let fields := if isPreviewId item.id then ["select", "cleared"] else fields
  if isTemporaryId item.id then fields.drop 1 else fields

/-- C9 (Field sets by row kind): a split-child row yields exactly
`[select, payee, notes, category, debit, credit]`; a preview row yields
exactly `[select, cleared]`; any non-temporary row's list starts with
`select`; and a temporary (draft) row yields its kind's list with that
leading `select` removed. -/
theorem getFields_by_kind (sa sc : Bool) (item : TableItem) :
    (item.is_child = true → isPreviewId item.id = false → isTemporaryId item.id = false →
      getFields sa sc item = ["select", "payee", "notes", "category", "debit", "credit"]) ∧
    (isPreviewId item.id = true → isTemporaryId item.id = false →
      getFields sa sc item = ["select", "cleared"]) ∧
    (isTemporaryId item.id = false → (getFields sa sc item).head? = some "select") ∧
    (∀ id2, isTemporaryId item.id = true → isTemporaryId id2 = false →
      isPreviewId id2 = isPreviewId item.id →
      getFields sa sc item = (getFields sa sc ⟨id2, item.is_child⟩).drop 1) := by
  refine ⟨?_, ?_, ?_, ?_⟩
  · intro h1 h2 h3
    simp [getFields, h1, h2, h3]
  · intro h1 h2
    simp [getFields, h1, h2]
  · intro h
    by_cases hp : isPreviewId item.id
    · simp [getFields, h, hp]
    · by_cases hc : item.is_child
      · simp [getFields, h, hp, hc]
      · simp [getFields, h, hp, hc, List.filter]
  · intro id2 h1 h2 h3
    simp only [getFields, h1, h2, h3, if_true, if_false, Bool.false_eq_true]

/-- Witness for C9 on a temporary split-child row. -/
theorem getFields_by_kind_witness :
    getFields true true ⟨"temp", true⟩ = (getFields true true ⟨"x", true⟩).drop 1 :=
  (getFields_by_kind true true ⟨"temp", true⟩).2.2.2 "x" (by decide) (by decide) (by decide)

/-! ### Visible-row filter of `TransactionTable` (`useActions.ts` lines 1772–1808) -/

/-- A display row: its id and its (nullable) split-parent reference. -/
structure Row where
  id : String
  parent_id : Option String
deriving DecidableEq

/-- JS truthiness of a nullable id string: null/undefined and the empty
string are falsy. -/
def truthyId : Option String → Bool
  | none => false
  | some s => s != ""

/-- The filter callback of the transition branch of the `transactions`
`useMemo` of `TransactionTable`: `index` is the transitioning parent's
display index and `p` an index/row pair. -/
def keepRowCode (cur : String → Bool) (prev : Option (String → Bool)) (index : Int)
    (p : Nat × Row) : Bool :=
  match p.2.parent_id with
  | some par =>
    if par != "" then
      if index ≤ (p.1 : Int) then cur par
      else
        match prev with
        | some pfn => pfn par
        | none => true
    else true
  | none => true

/-- The `transactions` `useMemo` filter of `TransactionTable`.  `cur` is the
current `splitsExpanded.expanded` function, `prev` the previous snapshot's
(`prevSplitsExpanded.current`, if any), `transitionId` the state's
`transitionId`.  During a transition the anchor's index is found
(`-1` if absent, as with JS `findIndex`) and child rows at or after it use
`cur`, earlier ones the previous snapshot; otherwise the filter applies
`cur` uniformly. -/
def visibleRows (txs : List Row) (cur : String → Bool) (prev : Option (String → Bool))
    (transitionId : Option String) : List Row :=
  match transitionId with
  | some tid =>
    let index : Int :=
      match txs.findIdx? (fun t => t.id == tid) with
      | some i => (i : Int)
      | none => -1
    (txs.enum.filter (keepRowCode cur prev index)).map Prod.snd
  | none =>
    txs.filter (fun t =>
      match t.parent_id with
      | some par => if par != "" then cur par else true
      | none => true)

/-- The claim's row-keeping rule, stated in its own terms: every non-child
row is kept; a child row whose parent's index in display order is at or
after the transitioning parent's index `n` is kept according to the new
mode's effective expansion `cur`, and one whose parent comes before `n`
according to the previous snapshot's effective expansion `pfn`. -/
def keepRowSpec (txs : List Row) (cur pfn : String → Bool) (n : Nat) (t : Row) : Bool :=
  match t.parent_id with
  | some par =>
    if par != "" then
      match txs.findIdx? (fun r => r.id == par) with
      | some j => if n ≤ j then cur par else pfn par
      | none => true
    else true
  | none => true

/-- The visible rows as the claim describes them. -/
def visibleRowsSpec (txs : List Row) (cur pfn : String → Bool) (n : Nat) : List Row :=
  txs.filter (keepRowSpec txs cur pfn n)

/-- The row at a display index (rows lists are only inspected in bounds). -/
def rowAt (txs : List Row) (i : Nat) : Row := txs.getD i ⟨"", none⟩

/-- Split families are contiguous in display order: a child row's parent
occurs earlier as a non-child row, and every row strictly between the
parent and the child is itself a child row. -/
def childParentLinked (txs : List Row) (i : Nat) : Bool :=
  match (rowAt txs i).parent_id with
  | some par =>
    if par != "" then
      match txs.findIdx? (fun r => r.id == par) with
      | some j =>
        decide (j < i) && !truthyId (rowAt txs j).parent_id &&
          (List.range (i - j)).all (fun d => truthyId (rowAt txs (j + 1 + d)).parent_id)
      | none => false
    else true
  | none => true

/-- Every row of the list satisfies `childParentLinked` (the display-order
invariant of split families from the data model). -/
def contiguousFamilies (txs : List Row) : Bool :=
  (List.range txs.length).all (fun i => childParentLinked txs i)

lemma enumFrom_filter_snd {α : Type} (q : α → Bool) :
    ∀ (l : List α) (k : Nat),
      ((l.enumFrom k).filter (fun p => q p.2)).map Prod.snd = l.filter q := by
  intro l
  induction l with
  | nil => intro k; rfl
  | cons a l ih =>
    intro k
    simp only [List.enumFrom, List.filter]
    cases hq : q a
    · simpa [hq] using ih (k + 1)
    · simpa [hq] using ih (k + 1)

lemma enum_filter_snd {α : Type} (q : α → Bool) (l : List α) :
    ((l.enum).filter (fun p => q p.2)).map Prod.snd = l.filter q :=
  enumFrom_filter_snd q l 0

/-- C6 (Visible-row filter): provided split families are contiguous in
display order and the transitioning parent is a top-level row found at
index `n`, (a) outside a transition the filter applies the single current
effective-expansion function uniformly (equals the claim's rule with both
snapshots equal to `cur`), and (b) during a transition with a previous
snapshot present the filter keeps every non-child row, uses the new mode's
expansion for child rows of parents at or after the anchor, and the
previous snapshot's for child rows of parents before it. -/
theorem visible_rows_filter (txs : List Row) (cur pfn : String → Bool)
    (prev : Option (String → Bool)) (tid : String) (n : Nat)
    (hfind : txs.findIdx? (fun t => t.id == tid) = some n)
    (hanchor : truthyId (rowAt txs n).parent_id = false)
    (hcont : contiguousFamilies txs = true) :
    visibleRows txs cur prev none = visibleRowsSpec txs cur cur n ∧
    visibleRows txs cur (some pfn) (some tid) = visibleRowsSpec txs cur pfn n := by
  have hlink : ∀ i, i < txs.length → childParentLinked txs i = true := by
    intro i hi
    exact List.all_eq_true.mp hcont i (List.mem_range.mpr hi)
  have key : ∀ i, i < txs.length → ∀ par, (rowAt txs i).parent_id = some par → par ≠ "" →
      ∃ j, txs.findIdx? (fun r => r.id == par) = some j ∧ j < i ∧ (n ≤ i ↔ n ≤ j) := by
    intro i hi par hpar hne
    have hl := hlink i hi
    simp only [childParentLinked, hpar] at hl
    rw [if_pos (by simpa using hne)] at hl
    cases hj : txs.findIdx? (fun r => r.id == par) with
    | none => rw [hj] at hl; exact absurd hl (by simp)
    | some j =>
      rw [hj] at hl
      simp only [Bool.and_eq_true, decide_eq_true_eq, Bool.not_eq_true',
        List.all_eq_true, List.mem_range] at hl
      obtain ⟨⟨hji, hjtop⟩, hall⟩ := hl
      refine ⟨j, rfl, hji, ?_, ?_⟩
      · intro hni
        by_contra hnj
        push_neg at hnj
        have ht := hall (n - j - 1) (by omega)
        rw [show j + 1 + (n - j - 1) = n by omega] at ht
        rw [hanchor] at ht
        exact absurd ht (by simp)
      · intro hnj
        omega
  constructor
  · simp only [visibleRows, visibleRowsSpec]
    apply List.filter_congr
    intro t ht
    obtain ⟨i, hi, heq⟩ := List.mem_iff_getElem.mp ht
    rcases hpid : t.parent_id with _ | par
    · simp [keepRowSpec, hpid]
    · by_cases hpe : par = ""
      · subst hpe
        simp [keepRowSpec, hpid]
      · have hrow : rowAt txs i = t := by
          rw [rowAt, List.getD_eq_getElem _ _ hi, heq]
        obtain ⟨j, hj, _, _⟩ := key i hi par (by rw [hrow, hpid]) hpe
        simp only [keepRowSpec, hpid, hj]
        rw [if_pos (by simpa using hpe), if_pos (by simpa using hpe), ite_self]
  · simp only [visibleRows, hfind, visibleRowsSpec]
    rw [← enum_filter_snd (keepRowSpec txs cur pfn n) txs]
    congr 1
    apply List.filter_congr
    intro p hp
    obtain ⟨i, t⟩ := p
    have hget : txs[i]? = some t := List.mem_enum_iff_getElem?.mp hp
    obtain ⟨hi, heq⟩ := List.getElem?_eq_some_iff.mp hget
    have hrow : rowAt txs i = t := by
      rw [rowAt, List.getD_eq_getElem _ _ hi, heq]
    rcases hpid : t.parent_id with _ | par
    · simp [keepRowCode, keepRowSpec, hpid]
    · by_cases hpe : par = ""
      · subst hpe
        simp [keepRowCode, keepRowSpec, hpid]
      · obtain ⟨j, hj, hji, hiff⟩ := key i hi par (by rw [hrow, hpid]) hpe
        by_cases hni : n ≤ i
        · have hnj : n ≤ j := hiff.mp hni
          have hic : ((n : Nat) : Int) ≤ ((i : Nat) : Int) := by exact_mod_cast hni
          simp [keepRowCode, keepRowSpec, hpid, hj, hpe, hic, hnj]
        · have hnj : ¬n ≤ j := fun h => hni (hiff.mpr h)
          have hic : ¬((n : Nat) : Int) ≤ ((i : Nat) : Int) := by exact_mod_cast hni
          simp [keepRowCode, keepRowSpec, hpid, hj, hpe, hic, hnj]

/-- Witness for C6 on a concrete four-row table with two split families,
anchored at the second family's parent. -/
theorem visible_rows_filter_witness :
    visibleRows [⟨"p", none⟩, ⟨"c1", some "p"⟩, ⟨"a", none⟩, ⟨"d1", some "a"⟩]
        (fun s => s == "a") (some (fun s => s == "p")) none =
      visibleRowsSpec [⟨"p", none⟩, ⟨"c1", some "p"⟩, ⟨"a", none⟩, ⟨"d1", some "a"⟩]
        (fun s => s == "a") (fun s => s == "a") 2 ∧
    visibleRows [⟨"p", none⟩, ⟨"c1", some "p"⟩, ⟨"a", none⟩, ⟨"d1", some "a"⟩]
        (fun s => s == "a") (some (fun s => s == "p")) (some "a") =
      visibleRowsSpec [⟨"p", none⟩, ⟨"c1", some "p"⟩, ⟨"a", none⟩, ⟨"d1", some "a"⟩]
        (fun s => s == "a") (fun s => s == "p") 2 :=
  visible_rows_filter _ (fun s => s == "a") (fun s => s == "p")
    (some (fun s => s == "p")) "a" 2 (by decide) (by decide) (by decide)
